import Mathlib

/-!
# Verification of the gematria-rs calculation engine

A shallow embedding of the gematria-rs library (`src/lib.rs`, `src/methods.rs`)
together with proofs about the letter index table, the four implemented
calculation strategies, the vowel filter, the caching engine, and the
word-grouping operation.

Conventions used by the embedding:
* Rust `u32` values are modelled as `Nat`; no computation in the library
  approaches `2^32` (the largest single-letter value is 900), so overflow
  never occurs and no modular reduction is needed.
* Rust `HashMap`s are modelled as association lists.  The letter tables are
  built by inserting distinct keys, so `HashMap::get` coincides with a first
  match lookup over the insertion-order list.  The one place the code
  iterates a map (`OtyiotBeMilui::index_to_char`) searches for an index that
  occurs at most once among the values, so the unspecified iteration order of
  the Rust `HashMap` cannot change the result; insertion order is used as the
  representative order.
* The interior-mutability cache (`RefCell<HashMap<..>>`) is modelled by
  explicit state passing: operations that may touch the cache return the
  updated context alongside their result.
* `unimplemented!` (an aborting panic) is modelled as `Option.none` at the
  point of strategy construction, so `GematriaContext::new` and
  `GematriaBuilder::init_gematria` return `Option GematriaContext`.
-/

namespace GematriaRs

/-- First-match lookup over an association list, modelling `HashMap::get`
(the maps in this library have pairwise distinct keys). -/
def assocLookup {α β : Type} [DecidableEq α] (k : α) : List (α × β) → Option β
  | [] => none
  | (k', v) :: rest => if k' = k then some v else assocLookup k rest

/-- The `GematriaMethod` enum from `methods.rs`. -/
inductive GematriaMethod where
  | MisparHechrechi
  | MisparGadol
  | MisparKatan
  | MisparSiduri
  | MisparBoneh
  | MisparMeugal
  | MisparMusafi
  | OtiyotBeMilui
deriving DecidableEq

/-- `std_gematria_value` from `methods.rs`:
`10u32.pow((letter_index - 1) / 9) * (((letter_index - 1) % 9) + 1)`.
The function is only ever applied to indices `1..=27` coming from the index
map, where Rust's `u32` subtraction and Lean's `Nat` subtraction agree. -/
def std_gematria_value (letter_index : Nat) : Nat :=
  10 ^ ((letter_index - 1) / 9) * ((letter_index - 1) % 9 + 1)

/-- The 22 standard Hebrew consonants in alphabetic order followed by the
5 final forms, exactly the `letters` vector of `create_hebrew_index_map`
in `lib.rs`. -/
def hebrew_letters : List Char :=
  ['א', 'ב', 'ג', 'ד', 'ה', 'ו', 'ז', 'ח', 'ט', 'י', 'כ', 'ל', 'מ', 'נ', 'ס', 'ע', 'פ', 'צ',
   'ק', 'ר', 'ש', 'ת',
   -- Final forms
   'ך', 'ם', 'ן', 'ף', 'ץ']

/-- `create_hebrew_index_map` from `lib.rs`: each letter is inserted with
`index + 1` where `index` is its 0-based position in `hebrew_letters`. -/
def create_hebrew_index_map : List (Char × Nat) :=
  hebrew_letters.enum.map (fun p => (p.2, p.1 + 1))

/-- `create_hebrew_filled_letters_map` from `lib.rs`: the full spelling of
each base letter's name. -/
def create_hebrew_filled_letters_map : List (Char × List Char) :=
  [('א', ['א', 'ל', 'ף']),
   ('ב', ['ב', 'י', 'ת']),
   ('ג', ['ג', 'י', 'מ', 'ל']),
   ('ד', ['ד', 'ל', 'ת']),
   ('ה', ['ה', 'א']),
   ('ו', ['ו', 'י', 'ו']),
   ('ז', ['ז', 'י', 'ן']),
   ('ח', ['ח', 'י', 'ת']),
   ('ט', ['ט', 'י', 'ת']),
   ('י', ['י', 'ו', 'ד']),
   ('כ', ['כ', 'ף']),
   ('ל', ['ל', 'מ', 'ד']),
   ('מ', ['מ', 'ם']),
   ('נ', ['נ', 'ו', 'ן']),
   ('ס', ['ס', 'מ', 'ך']),
   ('ע', ['ע', 'י', 'ן']),
   ('פ', ['פ', 'א']),
   ('צ', ['צ', 'ד', 'י']),
   ('ק', ['ק', 'ו', 'ף']),
   ('ר', ['ר', 'י', 'ש']),
   ('ש', ['ש', 'י', 'ן']),
   ('ת', ['ת', 'י', 'ו'])]

/-- `MisparHechrechi::calculate_value` from `methods.rs`. -/
def misparHechrechi_value (letter_index : Nat) : Nat :=
  match letter_index with
  -- Unique handling for final forms
  | 23 => 20 -- ך
  | 24 => 40 -- ם
  | 25 => 50 -- ן
  | 26 => 80 -- ף
  | 27 => 90 -- ץ
  -- Standard calculation for other letters
  | index => std_gematria_value index

/-- `MisparGadol::calculate_value` from `methods.rs`. -/
def misparGadol_value (letter_index : Nat) : Nat :=
  match letter_index with
  -- Unique handling for final forms
  | 23 => 500 -- ך
  | 24 => 600 -- ם
  | 25 => 700 -- ן
  | 26 => 800 -- ף
  | 27 => 900 -- ץ
  -- Standard calculation for other letters
  | index => std_gematria_value index

/-- The sum of the decimal digits of `value`, modelling
`value.to_string().chars().map(|d| d.to_digit(10).unwrap()).sum()` from
`MisparKatan::reduce_to_single_digit` (the digit list is reversed relative
to the printed string, which does not change the sum). -/
def digit_sum (value : Nat) : Nat :=
  (Nat.digits 10 value).sum

theorem digit_sum_lt_self {value : Nat} (h : 10 ≤ value) : digit_sum value < value := by
  have hd : Nat.digits 10 value = value % 10 :: Nat.digits 10 (value / 10) :=
    Nat.digits_def' (by norm_num) (by omega)
  have hle : (Nat.digits 10 (value / 10)).sum ≤ value / 10 := Nat.digit_sum_le 10 (value / 10)
  unfold digit_sum
  rw [hd, List.sum_cons]
  omega

/-- `MisparKatan::reduce_to_single_digit` from `methods.rs`: repeatedly
replace the value by the sum of its decimal digits while it is ≥ 10. -/
def reduce_to_single_digit (value : Nat) : Nat :=
  if h : 10 ≤ value then reduce_to_single_digit (digit_sum value) else value
termination_by value
decreasing_by exact digit_sum_lt_self h

/-- `MisparKatan::calculate_value` from `methods.rs`: the MisparGadol-style
raw value reduced to a single digit. -/
def misparKatan_value (letter_index : Nat) : Nat :=
  let value :=
    match letter_index with
    -- Unique handling for final forms
    | 23 => 500 -- ך
    | 24 => 600 -- ם
    | 25 => 700 -- ן
    | 26 => 800 -- ף
    | 27 => 900 -- ץ
    -- Standard calculation for other letters
    | _ => std_gematria_value letter_index
  reduce_to_single_digit value

/-- The `OtyiotBeMilui` strategy struct from `methods.rs`, holding the
spelled-out-letters table and the character index table. -/
structure OtyiotBeMilui where
  filled_letters : List (Char × List Char)
  char_to_index : List (Char × Nat)

/-- `OtyiotBeMilui::index_to_char`: linear search over the index map for a
character carrying the given index.  The standard index map is injective in
its values, so the unspecified `HashMap` iteration order cannot affect the
result; the insertion-order list is searched. -/
def OtyiotBeMilui.index_to_char (s : OtyiotBeMilui) (index : Nat) : Option Char :=
  s.char_to_index.findSome? (fun p => if p.2 = index then some p.1 else none)

/-- `OtyiotBeMilui::explode_full_letters`: sum the final-form-aware standard
values of the characters spelling the letter's name.  The source unwraps the
index lookup of every spelled character; every spelled character is present
in the standard index table (`spelled_chars_indexed` below), so the `none`
branch is unreachable there and is mapped to 0 here. -/
def OtyiotBeMilui.explode_full_letters (s : OtyiotBeMilui) (charcter : Char) : Nat :=
  match assocLookup charcter s.filled_letters with
  | some filled_form =>
    (filled_form.map (fun c =>
      match assocLookup c s.char_to_index with
      -- Unique handling for final forms
      | some 23 => 20 -- ך
      | some 24 => 40 -- ם
      | some 25 => 50 -- ן
      | some 26 => 80 -- ף
      | some 27 => 90 -- ץ
      -- Standard calculation for other letters
      | some index => std_gematria_value index
      | none => 0)).sum
  | none => 0

/-- `OtyiotBeMilui::calculate_value` from `methods.rs`. -/
def OtyiotBeMilui.calculate_value (s : OtyiotBeMilui) (letter_index : Nat) : Nat :=
  match s.index_to_char letter_index with
  | some letter => s.explode_full_letters letter
  | none => 0

/-- Every character appearing in a spelled-out letter name is present in the
standard index table, so the unwrap in `explode_full_letters` never panics. -/
theorem spelled_chars_indexed :
    ∀ p ∈ create_hebrew_filled_letters_map, ∀ c ∈ p.2,
      (assocLookup c create_hebrew_index_map).isSome = true := by decide

/-- The standard index map carries pairwise distinct indices, so
`index_to_char` is independent of map iteration order. -/
theorem index_map_values_nodup :
    (create_hebrew_index_map.map (fun p => p.2)).Nodup := by decide

/-- The `GematriaCalculation` trait object: a value function together with
the method identity reported by `method_type`. -/
structure GematriaCalculation where
  calculate_value : Nat → Nat
  method_type : GematriaMethod

/-- `HebrewCharacterMap` from `lib.rs`. -/
structure HebrewCharacterMap where
  char_to_index : List (Char × Nat)

/-- `process_method_dyn` from `lib.rs`: selects the strategy for a method.
The `unimplemented!` abort on the remaining enum variants is modelled as
`none`. -/
def process_method_dyn (method : GematriaMethod) (char_map : HebrewCharacterMap) :
    Option GematriaCalculation :=
  match method with
  | .MisparHechrechi => some ⟨misparHechrechi_value, .MisparHechrechi⟩
  | .MisparGadol => some ⟨misparGadol_value, .MisparGadol⟩
  | .MisparKatan => some ⟨misparKatan_value, .MisparKatan⟩
  | .OtiyotBeMilui =>
    some ⟨(OtyiotBeMilui.mk create_hebrew_filled_letters_map
            char_map.char_to_index).calculate_value,
          .OtiyotBeMilui⟩
  | _ => none

/-- The engine cache, `RefCell<HashMap<(GematriaMethod, String), u32>>` in
`lib.rs`, modelled as an association list where insertion conses the new
entry in front (a `HashMap` insert replaces the entry; the first-match
lookup over the consed list observes exactly the replaced map). -/
abbrev GematriaCtxCache := List ((GematriaMethod × String) × Nat)

/-- `GematriaContext` from `lib.rs`. -/
structure GematriaContext where
  character_map : HebrewCharacterMap
  calculation_strategy : GematriaCalculation
  cache : Option GematriaCtxCache
  preserve_vowels : Bool

/-- `GematriaContext::new` from `lib.rs`; `none` when the strategy
construction hits the `unimplemented!` abort. -/
def GematriaContext.new (char_map : HebrewCharacterMap) (method : GematriaMethod)
    (enable_cache : Bool) (preserve_vowels : Bool) : Option GematriaContext :=
  match process_method_dyn method char_map with
  | some strategy =>
    some ⟨char_map, strategy, if enable_cache then some [] else none, preserve_vowels⟩
  | none => none

/-- `GematriaBuilder` from `lib.rs` (field names kept, including the
`presevre_vowels` spelling). -/
structure GematriaBuilder where
  method : Option GematriaMethod
  enable_cache : Bool
  presevre_vowels : Bool

/-- `GematriaBuilder::new`: all fields defaulted. -/
def GematriaBuilder.new : GematriaBuilder := ⟨none, false, false⟩

/-- `GematriaBuilder::with_cache`. -/
def GematriaBuilder.with_cache (b : GematriaBuilder) (enable : Bool) : GematriaBuilder :=
  { b with enable_cache := enable }

/-- `GematriaBuilder::with_method`. -/
def GematriaBuilder.with_method (b : GematriaBuilder) (method : GematriaMethod) :
    GematriaBuilder :=
  { b with method := some method }

/-- `GematriaBuilder::with_vowels`. -/
def GematriaBuilder.with_vowels (b : GematriaBuilder) (presevre_vowels : Bool) :
    GematriaBuilder :=
  { b with presevre_vowels := presevre_vowels }

/-- `GematriaBuilder::init_gematria`: builds the standard index map and
constructs the context, defaulting the method to `MisparHechrechi`. -/
def GematriaBuilder.init_gematria (b : GematriaBuilder) : Option GematriaContext :=
  GematriaContext.new ⟨create_hebrew_index_map⟩ (b.method.getD .MisparHechrechi)
    b.enable_cache b.presevre_vowels

/-- `GematriaContext::is_hebrew_vowel`: the combining-mark range
`'\u{0591}'..='\u{05C7}'`. -/
def is_hebrew_vowel (c : Char) : Bool :=
  0x0591 ≤ c.toNat && c.toNat ≤ 0x05C7

/-- `GematriaContext::remove_hebrew_vowels`. -/
def remove_hebrew_vowels (text : String) : String :=
  ⟨text.data.filter (fun c => !is_hebrew_vowel c)⟩

/-- `GematriaContext::handle_vowels`. -/
def GematriaContext.handle_vowels (ctx : GematriaContext) (word : String) : String :=
  if ctx.preserve_vowels then word else remove_hebrew_vowels word

/-- `GematriaContext::get_indices_for_word`: index of every mapped character,
unmapped characters silently skipped. -/
def GematriaContext.get_indices_for_word (ctx : GematriaContext) (word : String) : List Nat :=
  word.data.filterMap (fun c => assocLookup c ctx.character_map.char_to_index)

/-- `GematriaContext::calculate_value_no_cache`. -/
def GematriaContext.calculate_value_no_cache (ctx : GematriaContext) (word : String) : Nat :=
  ((ctx.get_indices_for_word word).map
    (fun index => ctx.calculation_strategy.calculate_value index)).sum

/-- `GematriaContext::get_current_method`. -/
def GematriaContext.get_current_method (ctx : GematriaContext) : GematriaMethod :=
  ctx.calculation_strategy.method_type

/-- `GematriaContext::get_character_index`. -/
def GematriaContext.get_character_index (ctx : GematriaContext) (character : Char) :
    Option Nat :=
  assocLookup character ctx.character_map.char_to_index

/-- `GematriaResult` from `lib.rs`. -/
structure GematriaResult where
  value : Nat
  method : GematriaMethod
  word : String
deriving DecidableEq

/-- `GematriaContext::calculate_char_value`: cache lookup keyed on
`(method, character.to_string())`, then index lookup and strategy call,
caching the computed value; unmapped characters yield 0 without caching.
The updated context is returned alongside the value. -/
def GematriaContext.calculate_char_value (ctx : GematriaContext) (character : Char) :
    Nat × GematriaContext :=
  let method := ctx.get_current_method
  let cache_key := (method, character.toString)
  match ctx.cache with
  | some cache =>
    match assocLookup cache_key cache with
    | some value => (value, ctx)
    | none =>
      match ctx.get_character_index character with
      | some index =>
        let value := ctx.calculation_strategy.calculate_value index
        (value, { ctx with cache := some ((cache_key, value) :: cache) })
      | none => (0, ctx)
  | none =>
    match ctx.get_character_index character with
    | some index => (ctx.calculation_strategy.calculate_value index, ctx)
    | none => (0, ctx)

/-- `GematriaContext::calculate_value`: vowel handling, cache lookup keyed on
`(method, processed_text)`, computation and insertion on a miss.  The updated
context is returned alongside the result. -/
def GematriaContext.calculate_value (ctx : GematriaContext) (text : String) :
    GematriaResult × GematriaContext :=
  let method := ctx.get_current_method
  let processed_text := ctx.handle_vowels text
  match ctx.cache with
  | some cache =>
    match assocLookup (method, processed_text) cache with
    | some value => (⟨value, method, processed_text⟩, ctx)
    | none =>
      let val := ctx.calculate_value_no_cache processed_text
      (⟨val, ctx.get_current_method, processed_text⟩,
        { ctx with cache := some (((method, processed_text), val) :: cache) })
  | none =>
    let val := ctx.calculate_value_no_cache processed_text
    (⟨val, ctx.get_current_method, processed_text⟩, ctx)

/-- The Unicode code points with the `White_Space` property, which is what
Rust's `str::split_whitespace` splits on. -/
def is_unicode_whitespace (c : Char) : Bool :=
  c.toNat = 0x9 || c.toNat = 0xA || c.toNat = 0xB || c.toNat = 0xC || c.toNat = 0xD ||
  c.toNat = 0x20 || c.toNat = 0x85 || c.toNat = 0xA0 || c.toNat = 0x1680 ||
  (0x2000 ≤ c.toNat && c.toNat ≤ 0x200A) ||
  c.toNat = 0x2028 || c.toNat = 0x2029 || c.toNat = 0x202F || c.toNat = 0x205F ||
  c.toNat = 0x3000

/-- The Hebrew maqaf (word separator) `'\u{05BE}'`. -/
def maqaf : Char := '־'

/-- `text.split_whitespace().flat_map(|w| w.split('\u{05BE}'))`: whitespace
splitting discards empty tokens, the maqaf splitting keeps them (as Rust's
`str::split` does). -/
def tokenize_words (text : String) : List String :=
  ((((text.data.splitOnP is_unicode_whitespace).filter (fun w => !w.isEmpty)).map
      (fun w => w.splitOn maqaf)).flatten).map (fun w => (⟨w⟩ : String))

/-- The `PushIfNotExists` helper from `lib.rs`: append a word to a bucket
unless it is already present. -/
def push_if_not_exists (l : List String) (item : String) : List String :=
  if item ∈ l then l else l ++ [item]

/-- `grouped_words.entry(value).or_insert_with(Vec::new).push_if_not_exists(word)`
over the bucket map, modelled as an association list in first-encounter key
order.  The bucket keys are distinct and the final result is sorted, so the
unspecified `HashMap` iteration order cannot affect the output. -/
def add_to_group (grouped : List (Nat × List String)) (value : Nat) (word : String) :
    List (Nat × List String) :=
  match grouped with
  | [] => [(value, [word])]
  | (v, ws) :: rest =>
    if v = value then (v, push_if_not_exists ws word) :: rest
    else (v, ws) :: add_to_group rest value word

/-- The comparator of `group_words_by_gematria`'s final sort, as a relation:
`a` precedes `b` when `a`'s bucket is strictly larger, or the buckets have
equal size and `a`'s value is not larger (descending size, ascending value). -/
def group_order (a b : Nat × List String) : Prop :=
  b.2.length < a.2.length ∨ (a.2.length = b.2.length ∧ a.1 ≤ b.1)

instance : DecidableRel group_order := fun a b => by
  unfold group_order
  exact instDecidableOr

instance : IsTotal (Nat × List String) group_order :=
  ⟨fun a b => by unfold group_order; omega⟩

instance : IsTrans (Nat × List String) group_order :=
  ⟨fun a b c hab hbc => by unfold group_order at *; omega⟩

/-- The loop body of `group_words_by_gematria`: process one token, threading
the cache state. -/
def group_step (acc : List (Nat × List String) × GematriaContext) (word : String) :
    List (Nat × List String) × GematriaContext :=
  let processed_text := acc.2.handle_vowels word
  let r := acc.2.calculate_value processed_text
  (add_to_group acc.1 r.1.value processed_text, r.2)

/-- `GematriaContext::group_words_by_gematria` from `lib.rs`: tokenize,
bucket deduplicated words by value, drop buckets with fewer than two words,
sort by descending bucket size with ties broken by ascending value.  The
source wraps the list in `io::Result` but always returns `Ok`; the updated
context (cache state) is returned alongside.  `sort_by` with this comparator
is modelled by `insertionSort` over `group_order`: the comparator never
returns `Equal` on entries with distinct keys, so every sort agrees. -/
def GematriaContext.group_words_by_gematria (ctx : GematriaContext) (text : String) :
    List (Nat × List String) × GematriaContext :=
  let folded := (tokenize_words text).foldl group_step ([], ctx)
  let retained := folded.1.filter (fun p => decide (1 < p.2.length))
  (retained.insertionSort group_order, folded.2)

/-- The strategy value `OtyiotBeMilui::new(create_hebrew_filled_letters_map(),
char_map.char_to_index)` built by `process_method_dyn` for the standard map. -/
def otiyot_strategy : OtyiotBeMilui :=
  ⟨create_hebrew_filled_letters_map, create_hebrew_index_map⟩

/-- The context produced by
`GematriaBuilder::new().with_method(MisparHechrechi).with_vowels(true).init_gematria()`. -/
def hech_vowels_ctx : GematriaContext :=
  ⟨⟨create_hebrew_index_map⟩, ⟨misparHechrechi_value, .MisparHechrechi⟩, none, true⟩

/-!
## Claim theorems
-/

/-- C1, counterexample: the index table does not map a final form to the
1-based position of its non-final counterpart.  Final Kaf is mapped to 23
while Kaf is mapped to 11. -/
theorem final_kaf_index_differs_from_kaf :
    assocLookup 'ך' create_hebrew_index_map = some 23 ∧
    assocLookup 'כ' create_hebrew_index_map = some 11 ∧
    assocLookup 'ך' create_hebrew_index_map ≠ assocLookup 'כ' create_hebrew_index_map := by
  decide

/-- C1 (amended): the letter index table maps the 5 final forms to their own
distinct indices 23–27 (final Kaf 23, final Mem 24, final Nun 25, final Pe
26, final Tsadi 27), while the non-final counterparts keep positions 11, 13,
14, 17 and 18; the final/non-final agreement (e.g. both Kaf forms worth 20)
holds at the MisparHechrechi value level, not at the index level. -/
theorem final_form_indices_and_values :
    (assocLookup 'ך' create_hebrew_index_map = some 23 ∧
     assocLookup 'ם' create_hebrew_index_map = some 24 ∧
     assocLookup 'ן' create_hebrew_index_map = some 25 ∧
     assocLookup 'ף' create_hebrew_index_map = some 26 ∧
     assocLookup 'ץ' create_hebrew_index_map = some 27) ∧
    (assocLookup 'כ' create_hebrew_index_map = some 11 ∧
     assocLookup 'מ' create_hebrew_index_map = some 13 ∧
     assocLookup 'נ' create_hebrew_index_map = some 14 ∧
     assocLookup 'פ' create_hebrew_index_map = some 17 ∧
     assocLookup 'צ' create_hebrew_index_map = some 18) ∧
    (misparHechrechi_value 23 = misparHechrechi_value 11 ∧
     misparHechrechi_value 24 = misparHechrechi_value 13 ∧
     misparHechrechi_value 25 = misparHechrechi_value 14 ∧
     misparHechrechi_value 26 = misparHechrechi_value 17 ∧
     misparHechrechi_value 27 = misparHechrechi_value 18) ∧
    misparHechrechi_value 23 = 20 := by
  decide

/-- C2: under MisparHechrechi every index `1..=22` gets the standard formula
value `10 ^ ((x-1)/9) * ((x-1) % 9 + 1)` (so Aleph = 1 and Tav = 400), and
the final-form indices 23–27 get 20, 40, 50, 80, 90, each equal to the value
of its non-final counterpart (indices 11, 13, 14, 17, 18). -/
theorem misparHechrechi_spec :
    (∀ x, x ≤ 22 → 1 ≤ x →
      misparHechrechi_value x = 10 ^ ((x - 1) / 9) * ((x - 1) % 9 + 1)) ∧
    misparHechrechi_value 1 = 1 ∧ misparHechrechi_value 22 = 400 ∧
    (misparHechrechi_value 23 = 20 ∧ misparHechrechi_value 24 = 40 ∧
     misparHechrechi_value 25 = 50 ∧ misparHechrechi_value 26 = 80 ∧
     misparHechrechi_value 27 = 90) ∧
    (misparHechrechi_value 23 = misparHechrechi_value 11 ∧
     misparHechrechi_value 24 = misparHechrechi_value 13 ∧
     misparHechrechi_value 25 = misparHechrechi_value 14 ∧
     misparHechrechi_value 26 = misparHechrechi_value 17 ∧
     misparHechrechi_value 27 = misparHechrechi_value 18) := by
  decide

/-- C2 witness: the standard formula instantiated at Tav (index 22). -/
theorem misparHechrechi_spec_witness :
    misparHechrechi_value 22 = 10 ^ ((22 - 1) / 9) * ((22 - 1) % 9 + 1) :=
  misparHechrechi_spec.1 22 (by decide) (by decide)

/-- C5: under MisparGadol the final-form indices 23–27 yield 500, 600, 700,
800, 900 (each strictly above 400), and every index `1..=22` agrees with
MisparHechrechi. -/
theorem misparGadol_spec :
    (∀ x, x ≤ 22 → 1 ≤ x → misparGadol_value x = misparHechrechi_value x) ∧
    (misparGadol_value 23 = 500 ∧ misparGadol_value 24 = 600 ∧
     misparGadol_value 25 = 700 ∧ misparGadol_value 26 = 800 ∧
     misparGadol_value 27 = 900) ∧
    (∀ x, x ≤ 27 → 23 ≤ x → 400 < misparGadol_value x) := by
  decide

/-- C5 witness: agreement with MisparHechrechi at index 22 and the strict
bound at final Tsadi (index 27). -/
theorem misparGadol_spec_witness :
    misparGadol_value 22 = misparHechrechi_value 22 ∧ 400 < misparGadol_value 27 :=
  ⟨misparGadol_spec.1 22 (by decide) (by decide),
   misparGadol_spec.2.2 27 (by decide) (by decide)⟩

/-- C3: each enumerated method without an implemented strategy (MisparSiduri,
MisparBoneh, MisparMeugal, MisparMusafi) makes strategy construction fail, so
engine construction through the builder yields no engine at all — nothing is
silently substituted and no zero-valued engine is ever produced. -/
theorem unimplemented_methods_fail_at_construction :
    ((GematriaBuilder.new.with_method .MisparSiduri).init_gematria = none ∧
     (GematriaBuilder.new.with_method .MisparBoneh).init_gematria = none ∧
     (GematriaBuilder.new.with_method .MisparMeugal).init_gematria = none ∧
     (GematriaBuilder.new.with_method .MisparMusafi).init_gematria = none) ∧
    (process_method_dyn .MisparSiduri ⟨create_hebrew_index_map⟩ = none ∧
     process_method_dyn .MisparBoneh ⟨create_hebrew_index_map⟩ = none ∧
     process_method_dyn .MisparMeugal ⟨create_hebrew_index_map⟩ = none ∧
     process_method_dyn .MisparMusafi ⟨create_hebrew_index_map⟩ = none) :=
  ⟨⟨rfl, rfl, rfl, rfl⟩, ⟨rfl, rfl, rfl, rfl⟩⟩

/-- The digital root in closed form: 0 for 0, otherwise `1 + (n - 1) % 9`
(the single digit `1..=9` obtained by repeatedly summing decimal digits; a
positive multiple of 9 has digital root 9, not 0). -/
def digital_root (n : Nat) : Nat :=
  if n = 0 then 0 else 1 + (n - 1) % 9

theorem digit_sum_pos {n : Nat} (h : 1 ≤ n) : 1 ≤ digit_sum n := by
  revert h
  induction n using Nat.strong_induction_on with
  | _ n ih =>
    intro h
    have hd : Nat.digits 10 n = n % 10 :: Nat.digits 10 (n / 10) :=
      Nat.digits_def' (by norm_num) (by omega)
    have hsum : digit_sum n = n % 10 + digit_sum (n / 10) := by
      unfold digit_sum
      rw [hd, List.sum_cons]
    by_cases hm : 1 ≤ n % 10
    · omega
    · have hq : 1 ≤ n / 10 := by omega
      have := ih (n / 10) (by omega) hq
      omega

/-- The digit-summing loop computes the digital root: for every positive
value it reaches `1 + (n - 1) % 9`. -/
theorem reduce_to_single_digit_eq_digital_root {n : Nat} (h : 1 ≤ n) :
    reduce_to_single_digit n = 1 + (n - 1) % 9 := by
  revert h
  induction n using Nat.strong_induction_on with
  | _ n ih =>
    intro h
    by_cases h10 : 10 ≤ n
    · have hlt := digit_sum_lt_self h10
      have hpos : 1 ≤ digit_sum n := digit_sum_pos (by omega)
      have hstep := ih (digit_sum n) hlt hpos
      have hmod : n % 9 = digit_sum n % 9 := Nat.modEq_nine_digits_sum n
      rw [reduce_to_single_digit, dif_pos h10, hstep]
      omega
    · rw [reduce_to_single_digit, dif_neg h10]
      omega

theorem std_gematria_value_pos (x : Nat) : 1 ≤ std_gematria_value x := by
  unfold std_gematria_value
  have h1 : 0 < 10 ^ ((x - 1) / 9) := Nat.pos_pow_of_pos _ (by norm_num)
  have h2 : 0 < (x - 1) % 9 + 1 := Nat.succ_pos _
  exact Nat.mul_pos h1 h2

theorem misparGadol_value_pos (x : Nat) : 1 ≤ misparGadol_value x := by
  unfold misparGadol_value
  split
  · norm_num
  · norm_num
  · norm_num
  · norm_num
  · norm_num
  · exact std_gematria_value_pos x

/-- MisparKatan is the digit-summing reduction of the MisparGadol-style raw
value (the inner match of `MisparKatan::calculate_value` coincides
definitionally with `MisparGadol::calculate_value`). -/
theorem misparKatan_eq_reduce_gadol (x : Nat) :
    misparKatan_value x = reduce_to_single_digit (misparGadol_value x) := by
  unfold misparKatan_value misparGadol_value
  split <;> rfl

/-- C4: for every index `1..=27`, the MisparKatan value is the digital root
of the MisparGadol-style raw value (final forms 23–27 raw 500–900, others the
standard formula), hence always a single digit between 1 and 9; in
particular final Tsadi (index 27, raw value 900) reduces to 9, not 0. -/
theorem misparKatan_spec :
    (∀ x, x ≤ 27 → 1 ≤ x →
      misparKatan_value x = digital_root (misparGadol_value x) ∧
      1 ≤ misparKatan_value x ∧ misparKatan_value x ≤ 9) ∧
    misparGadol_value 27 = 900 ∧ misparKatan_value 27 = 9 := by
  have key : ∀ x, misparKatan_value x = digital_root (misparGadol_value x) := by
    intro x
    have hpos := misparGadol_value_pos x
    rw [misparKatan_eq_reduce_gadol, reduce_to_single_digit_eq_digital_root hpos]
    unfold digital_root
    rw [if_neg (by omega)]
  constructor
  · intro x _ _
    have hpos := misparGadol_value_pos x
    refine ⟨key x, ?_, ?_⟩
    · rw [key x]
      unfold digital_root
      rw [if_neg (by omega)]
      omega
    · rw [key x]
      unfold digital_root
      rw [if_neg (by omega)]
      omega
  · refine ⟨by decide, ?_⟩
    rw [key 27]
    decide

/-- C4 witness: the reduction instantiated at final Tsadi (index 27). -/
theorem misparKatan_spec_witness :
    misparKatan_value 27 = digital_root (misparGadol_value 27) ∧
    1 ≤ misparKatan_value 27 ∧ misparKatan_value 27 ≤ 9 :=
  misparKatan_spec.1 27 (by decide) (by decide)

/-- The context produced by
`GematriaBuilder::new().with_method(OtiyotBeMilui).init_gematria()`. -/
def otiyot_ctx : GematriaContext :=
  ⟨⟨create_hebrew_index_map⟩, ⟨otiyot_strategy.calculate_value, .OtiyotBeMilui⟩, none, false⟩

theorem filterMap_indices_append (cmap : List (Char × Nat)) (s : List Char) (f : Char) :
    (s ++ [f]).filterMap (fun c => assocLookup c cmap) =
      s.filterMap (fun c => assocLookup c cmap) ++ (assocLookup f cmap).toList := by
  rw [List.filterMap_append]
  congr 1

/-- C6: under OtiyotBeMilui the value of every base letter (every key of the
spelled-out-letters table) is the sum, over the characters spelling its name,
of the final-form-aware MisparHechrechi value of each spelled character; and
through the engine, Aleph evaluates to 111 and Bet to 412. -/
theorem otiyotBeMilui_spec :
    (∀ p ∈ create_hebrew_filled_letters_map,
      otiyot_strategy.calculate_value ((assocLookup p.1 create_hebrew_index_map).getD 0) =
        (p.2.map
          (fun c => misparHechrechi_value ((assocLookup c create_hebrew_index_map).getD 0))).sum) ∧
    (∀ ctx, (GematriaBuilder.new.with_method .OtiyotBeMilui).init_gematria = some ctx →
      (ctx.calculate_char_value 'א').1 = 111 ∧ (ctx.calculate_char_value 'ב').1 = 412) := by
  constructor
  · decide
  · intro ctx h
    have h2 : some otiyot_ctx = some ctx := h
    cases h2
    decide

/-- C6 witness: the spelling sum at Aleph, and the engine values for Aleph
and Bet. -/
theorem otiyotBeMilui_spec_witness :
    otiyot_strategy.calculate_value ((assocLookup 'א' create_hebrew_index_map).getD 0) =
      ((['א', 'ל', 'ף'] : List Char).map
        (fun c => misparHechrechi_value ((assocLookup c create_hebrew_index_map).getD 0))).sum ∧
    (otiyot_ctx.calculate_char_value 'א').1 = 111 ∧
    (otiyot_ctx.calculate_char_value 'ב').1 = 412 :=
  ⟨otiyotBeMilui_spec.1 ('א', ['א', 'ל', 'ף']) (by decide),
   otiyotBeMilui_spec.2 otiyot_ctx rfl⟩

/-- C10: under OtiyotBeMilui every final-form letter evaluates to 0: its
index 23–27 reverse-maps to the final-form character itself, that character
has no entry in the spelled-out-letters table, so the strategy returns 0,
the engine's character value is 0, and appending a final form to any word
leaves the word's value unchanged. -/
theorem otiyot_final_forms_zero :
    (otiyot_strategy.index_to_char 23 = some 'ך' ∧
     otiyot_strategy.index_to_char 24 = some 'ם' ∧
     otiyot_strategy.index_to_char 25 = some 'ן' ∧
     otiyot_strategy.index_to_char 26 = some 'ף' ∧
     otiyot_strategy.index_to_char 27 = some 'ץ') ∧
    (assocLookup 'ך' create_hebrew_filled_letters_map = none ∧
     assocLookup 'ם' create_hebrew_filled_letters_map = none ∧
     assocLookup 'ן' create_hebrew_filled_letters_map = none ∧
     assocLookup 'ף' create_hebrew_filled_letters_map = none ∧
     assocLookup 'ץ' create_hebrew_filled_letters_map = none) ∧
    (otiyot_strategy.calculate_value 23 = 0 ∧ otiyot_strategy.calculate_value 24 = 0 ∧
     otiyot_strategy.calculate_value 25 = 0 ∧ otiyot_strategy.calculate_value 26 = 0 ∧
     otiyot_strategy.calculate_value 27 = 0) ∧
    ((otiyot_ctx.calculate_char_value 'ך').1 = 0 ∧
     (otiyot_ctx.calculate_char_value 'ם').1 = 0 ∧
     (otiyot_ctx.calculate_char_value 'ן').1 = 0 ∧
     (otiyot_ctx.calculate_char_value 'ף').1 = 0 ∧
     (otiyot_ctx.calculate_char_value 'ץ').1 = 0) ∧
    (∀ f ∈ (['ך', 'ם', 'ן', 'ף', 'ץ'] : List Char), ∀ s : List Char,
      otiyot_ctx.calculate_value_no_cache ⟨s ++ [f]⟩ =
        otiyot_ctx.calculate_value_no_cache ⟨s⟩) := by
  refine ⟨by decide, by decide, by decide, by decide, ?_⟩
  have hz : ∀ f ∈ (['ך', 'ם', 'ן', 'ף', 'ץ'] : List Char),
      ((assocLookup f create_hebrew_index_map).toList.map
        otiyot_strategy.calculate_value).sum = 0 := by decide
  intro f hf s
  show (((s ++ [f]).filterMap (fun c => assocLookup c create_hebrew_index_map)).map
      otiyot_strategy.calculate_value).sum =
    ((s.filterMap (fun c => assocLookup c create_hebrew_index_map)).map
      otiyot_strategy.calculate_value).sum
  rw [filterMap_indices_append, List.map_append, List.sum_append, hz f hf]
  exact Nat.add_zero _

/-- C10 witness: final Kaf appended to the word Aleph-Bet contributes 0. -/
theorem otiyot_final_forms_zero_witness :
    otiyot_ctx.calculate_value_no_cache ⟨['א', 'ב'] ++ ['ך']⟩ =
      otiyot_ctx.calculate_value_no_cache ⟨['א', 'ב']⟩ :=
  otiyot_final_forms_zero.2.2.2.2 'ך' (by decide) ['א', 'ב']

theorem assocLookup_mem {α β : Type} [DecidableEq α] {k : α} {l : List (α × β)} {v : β}
    (h : assocLookup k l = some v) : (k, v) ∈ l := by
  induction l with
  | nil => cases h
  | cons p rest ih =>
    obtain ⟨k', v'⟩ := p
    unfold assocLookup at h
    split at h
    · next heq =>
      injection h with hv
      subst heq
      subst hv
      exact List.mem_cons_self _ _
    · exact List.mem_cons_of_mem _ (ih h)

/-- No character of the combining-mark range `U+0591..=U+05C7` has an entry
in the standard index table (the table's 27 letters all lie at `U+05D0` and
above). -/
theorem vowel_not_indexed {c : Char} (h : is_hebrew_vowel c = true) :
    assocLookup c create_hebrew_index_map = none := by
  cases hl : assocLookup c create_hebrew_index_map with
  | none => rfl
  | some v =>
    exfalso
    have hall : ∀ p ∈ create_hebrew_index_map, is_hebrew_vowel p.1 = false := by decide
    have h2 : is_hebrew_vowel c = false := hall (c, v) (assocLookup_mem hl)
    rw [h] at h2
    cases h2

/-- Stripping the vowel range first does not change the extracted index
sequence: vowel characters already fail the index lookup. -/
theorem filterMap_indices_filter_vowels (l : List Char) :
    (l.filter (fun c => !is_hebrew_vowel c)).filterMap
        (fun c => assocLookup c create_hebrew_index_map) =
      l.filterMap (fun c => assocLookup c create_hebrew_index_map) := by
  induction l with
  | nil => rfl
  | cons c t ih =>
    by_cases hv : is_hebrew_vowel c
    · rw [List.filter_cons_of_neg (by simp [hv]), ih]
      simp only [List.filterMap_cons, vowel_not_indexed hv]
    · rw [List.filter_cons_of_pos (by simp [hv]), List.filterMap_cons, List.filterMap_cons, ih]

/-- C8: with vowel preservation enabled (and any strategy), the word field of
a `calculate_value` result is the original input exactly, and the numeric
value equals the value computed for the same input with every combining mark
in `U+0591..=U+05C7` removed. -/
theorem vowel_preservation_round_trip (strat : GematriaCalculation) (text : String) :
    (((GematriaContext.mk ⟨create_hebrew_index_map⟩ strat none true).calculate_value text).1.word
        = text) ∧
    (((GematriaContext.mk ⟨create_hebrew_index_map⟩ strat none true).calculate_value text).1.value
        = ((GematriaContext.mk ⟨create_hebrew_index_map⟩ strat none true).calculate_value
            (remove_hebrew_vowels text)).1.value) := by
  refine ⟨rfl, ?_⟩
  show ((text.data.filterMap (fun c => assocLookup c create_hebrew_index_map)).map
      strat.calculate_value).sum =
    (((text.data.filter (fun c => !is_hebrew_vowel c)).filterMap
      (fun c => assocLookup c create_hebrew_index_map)).map strat.calculate_value).sum
  rw [filterMap_indices_filter_vowels]

/-- The cache invariant: every entry `((method, word), v)` stores exactly the
no-cache value of `word` under the strategy that `process_method_dyn` builds
for `method` over the same character map. -/
abbrev CacheCoherent (char_map : HebrewCharacterMap) (cache : GematriaCtxCache) : Prop :=
  ∀ e ∈ cache, ∀ strat, process_method_dyn e.1.1 char_map = some strat →
    e.2 = GematriaContext.calculate_value_no_cache ⟨char_map, strat, none, false⟩ e.1.2

theorem calculate_value_cache_hit {ctx : GematriaContext} {cache : GematriaCtxCache}
    {v : Nat} {text : String} (h : ctx.cache = some cache)
    (hl : assocLookup (ctx.get_current_method, ctx.handle_vowels text) cache = some v) :
    ctx.calculate_value text = (⟨v, ctx.get_current_method, ctx.handle_vowels text⟩, ctx) := by
  simp only [GematriaContext.calculate_value, h, hl]

theorem calculate_value_cache_miss {ctx : GematriaContext} {cache : GematriaCtxCache}
    {text : String} (h : ctx.cache = some cache)
    (hl : assocLookup (ctx.get_current_method, ctx.handle_vowels text) cache = none) :
    ctx.calculate_value text =
      (⟨ctx.calculate_value_no_cache (ctx.handle_vowels text), ctx.get_current_method,
        ctx.handle_vowels text⟩,
       { ctx with cache := some (((ctx.get_current_method, ctx.handle_vowels text),
           ctx.calculate_value_no_cache (ctx.handle_vowels text)) :: cache) }) := by
  simp only [GematriaContext.calculate_value, h, hl]

theorem calculate_value_cacheless {ctx : GematriaContext} {text : String}
    (h : ctx.cache = none) :
    ctx.calculate_value text =
      (⟨ctx.calculate_value_no_cache (ctx.handle_vowels text), ctx.get_current_method,
        ctx.handle_vowels text⟩, ctx) := by
  simp only [GematriaContext.calculate_value, h]

/-- On a coherent cache, `calculate_value` returns exactly what the cacheless
engine returns, and leaves the cache coherent. -/
theorem calculate_value_coherent
    (char_map : HebrewCharacterMap) (strat : GematriaCalculation)
    (hm : process_method_dyn strat.method_type char_map = some strat)
    (cache : GematriaCtxCache) (hc : CacheCoherent char_map cache) (pv : Bool) (text : String) :
    ((⟨char_map, strat, some cache, pv⟩ : GematriaContext).calculate_value text).1 =
      ((⟨char_map, strat, none, pv⟩ : GematriaContext).calculate_value text).1 ∧
    ∃ cache', ((⟨char_map, strat, some cache, pv⟩ : GematriaContext).calculate_value text).2 =
        (⟨char_map, strat, some cache', pv⟩ : GematriaContext) ∧
      CacheCoherent char_map cache' := by
  have hN := @calculate_value_cacheless ⟨char_map, strat, none, pv⟩ text rfl
  cases hl : assocLookup
      (((⟨char_map, strat, some cache, pv⟩ : GematriaContext)).get_current_method,
       ((⟨char_map, strat, some cache, pv⟩ : GematriaContext)).handle_vowels text) cache with
  | some v =>
    have heq := @calculate_value_cache_hit ⟨char_map, strat, some cache, pv⟩ cache v text rfl hl
    have hcv : v = GematriaContext.calculate_value_no_cache ⟨char_map, strat, none, false⟩
        (((⟨char_map, strat, some cache, pv⟩ : GematriaContext)).handle_vowels text) :=
      hc _ (assocLookup_mem hl) strat hm
    rw [heq, hN]
    refine ⟨?_, cache, rfl, hc⟩
    rw [hcv]
    rfl
  | none =>
    have heq := @calculate_value_cache_miss ⟨char_map, strat, some cache, pv⟩ cache text rfl hl
    rw [heq, hN]
    refine ⟨rfl, _, rfl, ?_⟩
    intro e he strat' hm'
    rcases List.mem_cons.mp he with rfl | hmem
    · have hss : strat' = strat := Option.some.inj (hm'.symm.trans hm)
      subst hss
      rfl
    · exact hc e hmem strat' hm'

theorem process_method_dyn_method_type {m : GematriaMethod} {cm : HebrewCharacterMap}
    {strat : GematriaCalculation} (h : process_method_dyn m cm = some strat) :
    strat.method_type = m := by
  cases m <;> simp only [process_method_dyn] at h <;>
    first
      | exact Option.noConfusion h
      | (injection h with h2; rw [← h2])

/-- C7: with caching enabled, calling `calculate_value` twice on the same
text returns identical results (same value, method and word), and the result
always coincides with that of the identically configured engine built
without caching. -/
theorem cache_transparency
    (m : GematriaMethod) (pv : Bool) (ctxC ctxN : GematriaContext) (text : String)
    (hC : (((GematriaBuilder.new.with_method m).with_cache true).with_vowels pv).init_gematria
        = some ctxC)
    (hN : ((GematriaBuilder.new.with_method m).with_vowels pv).init_gematria = some ctxN) :
    (ctxC.calculate_value text).1 = (ctxN.calculate_value text).1 ∧
    ((ctxC.calculate_value text).2.calculate_value text).1 = (ctxC.calculate_value text).1 := by
  have hC' : (match process_method_dyn m ⟨create_hebrew_index_map⟩ with
      | some strategy => some (⟨⟨create_hebrew_index_map⟩, strategy, some [], pv⟩ : GematriaContext)
      | none => none) = some ctxC := hC
  have hN' : (match process_method_dyn m ⟨create_hebrew_index_map⟩ with
      | some strategy => some (⟨⟨create_hebrew_index_map⟩, strategy, none, pv⟩ : GematriaContext)
      | none => none) = some ctxN := hN
  cases hp : process_method_dyn m ⟨create_hebrew_index_map⟩ with
  | none =>
    rw [hp] at hC'
    exact Option.noConfusion hC'
  | some strat =>
    rw [hp] at hC' hN'
    injection hC' with hC2
    injection hN' with hN2
    subst hC2
    subst hN2
    have hm : process_method_dyn strat.method_type ⟨create_hebrew_index_map⟩ = some strat := by
      rw [process_method_dyn_method_type hp]
      exact hp
    obtain ⟨hr1, cache', hs, hc'⟩ :=
      calculate_value_coherent ⟨create_hebrew_index_map⟩ strat hm []
        (by intro e he; cases he) pv text
    have h2 := calculate_value_coherent ⟨create_hebrew_index_map⟩ strat hm cache' hc' pv text
    refine ⟨hr1, ?_⟩
    rw [hs, h2.1, ← hr1]

/-- The context produced by
`GematriaBuilder::new().with_method(MisparHechrechi).with_cache(true).with_vowels(true).init_gematria()`. -/
def hech_cache_ctx : GematriaContext :=
  ⟨⟨create_hebrew_index_map⟩, ⟨misparHechrechi_value, .MisparHechrechi⟩, some [], true⟩

/-- C7 witness: the cached and cacheless MisparHechrechi engines agree on
the word Shalom, and the second cached call reproduces the first. -/
theorem cache_transparency_witness :
    (hech_cache_ctx.calculate_value "שלום").1 = (hech_vowels_ctx.calculate_value "שלום").1 ∧
    ((hech_cache_ctx.calculate_value "שלום").2.calculate_value "שלום").1 =
      (hech_cache_ctx.calculate_value "שלום").1 :=
  cache_transparency .MisparHechrechi true hech_cache_ctx hech_vowels_ctx "שלום" rfl rfl

theorem push_if_not_exists_nodup {l : List String} {item : String} (h : l.Nodup) :
    (push_if_not_exists l item).Nodup := by
  unfold push_if_not_exists
  split
  · exact h
  · next hmem =>
    rw [List.nodup_append]
    refine ⟨h, List.nodup_singleton _, ?_⟩
    intro a ha hb
    rw [List.mem_singleton] at hb
    subst hb
    exact hmem ha

theorem add_to_group_nodup {grouped : List (Nat × List String)} {value : Nat} {word : String}
    (h : ∀ g ∈ grouped, g.2.Nodup) : ∀ g ∈ add_to_group grouped value word, g.2.Nodup := by
  induction grouped with
  | nil =>
    intro g hg
    unfold add_to_group at hg
    rw [List.mem_singleton] at hg
    subst hg
    exact List.nodup_singleton _
  | cons p rest ih =>
    intro g hg
    obtain ⟨v, ws⟩ := p
    unfold add_to_group at hg
    split at hg
    · rcases List.mem_cons.mp hg with rfl | hmem
      · exact push_if_not_exists_nodup (h (v, ws) (List.mem_cons_self _ _))
      · exact h g (List.mem_cons_of_mem _ hmem)
    · rcases List.mem_cons.mp hg with rfl | hmem
      · exact h (v, ws) (List.mem_cons_self _ _)
      · exact ih (fun g' hg' => h g' (List.mem_cons_of_mem _ hg')) g hmem

theorem group_fold_nodup (tokens : List String)
    (acc : List (Nat × List String) × GematriaContext)
    (h : ∀ g ∈ acc.1, g.2.Nodup) :
    ∀ g ∈ (tokens.foldl group_step acc).1, g.2.Nodup := by
  induction tokens generalizing acc with
  | nil => exact h
  | cons w ws ih =>
    rw [List.foldl_cons]
    exact ih _ (add_to_group_nodup h)

theorem group_general (ctx : GematriaContext) (text : String) :
    (∀ g ∈ (ctx.group_words_by_gematria text).1, 2 ≤ g.2.length ∧ g.2.Nodup) ∧
    List.Sorted group_order (ctx.group_words_by_gematria text).1 := by
  constructor
  · intro g hg
    simp only [GematriaContext.group_words_by_gematria] at hg
    rw [List.mem_insertionSort] at hg
    constructor
    · have hlen := List.of_mem_filter hg
      simp only [decide_eq_true_eq] at hlen
      omega
    · exact group_fold_nodup _ _ (by intro g' hg'; cases hg') g (List.mem_of_mem_filter hg)
  · simp only [GematriaContext.group_words_by_gematria]
    exact List.sorted_insertionSort _ _

/-- C9: `group_words_by_gematria` buckets the whitespace- and maqaf-separated
tokens by value, deduplicates within each bucket, keeps only buckets with at
least 2 distinct words, and returns them sorted by descending size with ties
broken by ascending value; in particular, on the phrase
"נכנס יין יצא סוד" under MisparHechrechi with vowel preservation it returns
exactly one group, value 70 with the words "יין" and "סוד" in encounter
order. -/
theorem group_words_by_gematria_spec :
    (∀ ctx : GematriaContext, ∀ text : String,
      (∀ g ∈ (ctx.group_words_by_gematria text).1, 2 ≤ g.2.length ∧ g.2.Nodup) ∧
      List.Sorted group_order (ctx.group_words_by_gematria text).1) ∧
    (∀ ctx, ((GematriaBuilder.new.with_method .MisparHechrechi).with_vowels true).init_gematria
        = some ctx →
      (ctx.group_words_by_gematria "נכנס יין יצא סוד").1 = [(70, ["יין", "סוד"])]) := by
  constructor
  · exact group_general
  · intro ctx h
    have h2 : some hech_vowels_ctx = some ctx := h
    cases h2
    decide

/-- C9 witness: the single group of the example phrase, which indeed has two
distinct words. -/
theorem group_words_by_gematria_spec_witness :
    (2 ≤ ((70, ["יין", "סוד"]) : Nat × List String).2.length ∧
      ((70, ["יין", "סוד"]) : Nat × List String).2.Nodup) ∧
    (hech_vowels_ctx.group_words_by_gematria "נכנס יין יצא סוד").1 = [(70, ["יין", "סוד"])] :=
  ⟨(group_words_by_gematria_spec.1 hech_vowels_ctx "נכנס יין יצא סוד").1 (70, ["יין", "סוד"])
      (by decide),
   group_words_by_gematria_spec.2 hech_vowels_ctx rfl⟩

end GematriaRs
